import Mathlib

/-!
Shallow embedding of the `lru` package (billhathaway/lru): a fixed-capacity
LRU cache mapping string keys to arbitrary values.

The Go implementation keeps two co-indexed structures: a doubly linked list
of `cacheEntry` nodes (front = most recently used, back = least recently
used) and a map `data : map[string]*list.Element` from key to list node.
The operations keep the two structures consistent (every key occurs in at
most one node and the map points exactly at the nodes of the list), so the
embedding represents the state by the list of entries alone, front first,
and derives the map lookup as the first entry whose key matches.

Machine integers: the counters and the limit are Go `uint`; no operation
ever decrements them or makes them wrap, so they are modelled as `Nat`.

The dynamic (`interface{}`) argument handed to `Purger.OnPurge` is modelled
by `PurgeArg`: the Go code sometimes passes the raw stored value
(`ce.value`) and sometimes the whole `cacheEntry` node payload
(`entry.Value`), and the two are observably different dynamic values.
Purger registration is modelled by a flag recording whether a purger is
set; the notifier calls an operation makes are returned as an ordered
event trace.
-/

namespace LruSpec

/-- `cacheEntry` from lru.go: the payload stored in each list node. -/
structure cacheEntry (V : Type) where
  key : String
  value : V
deriving DecidableEq, Repr

/-- The dynamic value passed to `Purger.OnPurge`: either a plain stored
value (`ce.value`) or the whole node payload (`entry.Value`, which is the
`cacheEntry` itself). -/
inductive PurgeArg (V : Type) where
  | ofValue (v : V)
  | ofEntry (ce : cacheEntry V)
deriving DecidableEq, Repr

/-- One `OnPurge(key, value)` call: the key argument and the dynamic value
argument. -/
abbrev PurgeEvent (V : Type) := String × PurgeArg V

/-- The `lru` struct of lru.go (also the `Cache` struct of the Cache.go
variant, whose fields are identical).  `seq` is the linked list front
first; the `data` map is derived from it (see the file comment).  `purger`
records whether a purge notifier is registered. -/
structure LRU (V : Type) where
  seq : List (cacheEntry V)
  limit : Nat
  hits : Nat
  misses : Nat
  expired : Nat
  removes : Nat
  purger : Bool
deriving DecidableEq, Repr

variable {V : Type}

/-- The state `New` returns on success: empty map, empty list, the given
limit, all counters zero, no purger registered. -/
def newLru (V : Type) (limit : Nat) : LRU V :=
  { seq := [], limit := limit, hits := 0, misses := 0, expired := 0,
    removes := 0, purger := false }

/-- `New(limit)`: error when `limit == 0`, otherwise a fresh cache. -/
def New (V : Type) (limit : Nat) : Except String (LRU V) :=
  if limit = 0 then Except.error "limit must be positive"
  else Except.ok (newLru V limit)

/-- `RegisterPurger`: records that a purger is registered. -/
def RegisterPurger (s : LRU V) : LRU V :=
  { s with purger := true }

/-- The map lookup `l.data[key]`: the node holding `key`, i.e. the first
entry of the sequence whose key matches (the operations keep keys unique). -/
def lookup (seq : List (cacheEntry V)) (key : String) : Option (cacheEntry V) :=
  seq.find? (fun ce => ce.key == key)

/-- Removing the node holding `key` from the sequence
(`l.list.Remove(entry)` for the node `lookup` found). -/
def eraseKey (seq : List (cacheEntry V)) (key : String) : List (cacheEntry V) :=
  seq.eraseP (fun ce => ce.key == key)

/-- `expire` from lru.go: take the back node; if it exists, increment
`expired`, delete its key from the map, remove the node from the list, and
if a purger is registered call `OnPurge(ce.key, entry.Value)` — note the
second argument is `entry.Value`, the whole `cacheEntry`, not `ce.value`.
If the list is empty the Go code only logs, changing nothing. -/
def expire (s : LRU V) : LRU V × List (PurgeEvent V) :=
  match s.seq.getLast? with
  | some ce =>
      ({ s with expired := s.expired + 1, seq := s.seq.dropLast },
       if s.purger then [(ce.key, PurgeArg.ofEntry ce)] else [])
  | none => (s, [])

/-- The eviction loop at the top of `Set`:
`for l.list.Len() >= int(l.limit) { l.expire() }`.  Modelled with explicit
fuel; `Set` passes `l.list.Len() + 1` fuel, which is enough to reach the
guard-false state whenever `limit ≥ 1` (the only states `New` can produce;
with `limit = 0` the Go loop would never terminate on an empty list). -/
def expireLoop (fuel : Nat) (s : LRU V) (evs : List (PurgeEvent V)) :
    LRU V × List (PurgeEvent V) :=
  match fuel with
  | 0 => (s, evs)
  | fuel + 1 =>
      if s.limit ≤ s.seq.length then
        let r := expire s
        expireLoop fuel r.1 (evs ++ r.2)
      else (s, evs)

/-- `Set(key, val)` from lru.go.  First the eviction loop runs (even when
`key` is already present).  Then, if the map holds `key`: the node is moved
to the front and the previous value is returned — the Go line
`ce := entry.Value.(cacheEntry)` copies the entry, so the assignment
`ce.value = val` mutates only the copy and the stored value is unchanged.
If `key` is absent, a new entry is pushed to the front and `nil` (`none`)
is returned.  Result: (new state, previous value, purge events in order). -/
def Set (s : LRU V) (key : String) (val : V) :
    LRU V × Option V × List (PurgeEvent V) :=
  let r := expireLoop (s.seq.length + 1) s []
  let s1 := r.1
  match lookup s1.seq key with
  | some ce =>
      ({ s1 with seq := ce :: eraseKey s1.seq key }, some ce.value, r.2)
  | none =>
      ({ s1 with seq := ⟨key, val⟩ :: s1.seq }, none, r.2)

/-- `Get(key)` from lru.go: on a hit, increment `hits`, move the node to
the front and return `(value, true)`; on a miss, increment `misses` and
return `(nil, false)`. -/
def Get (s : LRU V) (key : String) : LRU V × Option V × Bool :=
  match lookup s.seq key with
  | some ce =>
      ({ s with hits := s.hits + 1, seq := ce :: eraseKey s.seq key },
       some ce.value, true)
  | none => ({ s with misses := s.misses + 1 }, none, false)

/-- `Remove(key)` from lru.go: increment `removes` unconditionally; if the
key is present remove its node from list and map and return `true`, else
return `false`.  The body contains no `OnPurge` call, so the purge-event
trace of a `Remove` is always empty; the trace is part of the result so
that this is visible in statements. -/
def Remove (s : LRU V) (key : String) : LRU V × Bool × List (PurgeEvent V) :=
  let s0 := { s with removes := s.removes + 1 }
  match lookup s0.seq key with
  | some _ => ({ s0 with seq := eraseKey s0.seq key }, true, [])
  | none => (s0, false, [])

/-- `Len()`: the number of entries (`l.list.Len()`). -/
def Len (s : LRU V) : Nat := s.seq.length

/-- `Limit()`: the capacity. -/
def Limit (s : LRU V) : Nat := s.limit

/-- Folding `Set` over a list of key/value pairs (used to state properties
about sequences of insertions). -/
def setAll (s : LRU V) (kvs : List (String × V)) : LRU V :=
  kvs.foldl (fun s kv => (Set s kv.1 kv.2).1) s

/-- Folding `Get` over a list of keys, collecting the (value, found)
results in order. -/
def getAll (s : LRU V) (ks : List String) : LRU V × List (Option V × Bool) :=
  match ks with
  | [] => (s, [])
  | k :: ks =>
      let r := Get s k
      let rest := getAll r.1 ks
      (rest.1, (r.2.1, r.2.2) :: rest.2)

namespace Cache

/-- `expire` from the `Cache` variant (doc.go): identical to `LruSpec.expire`
except that the purger receives `ce.value`, the plain stored value. -/
def expire (s : LRU V) : LRU V × List (PurgeEvent V) :=
  match s.seq.getLast? with
  | some ce =>
      ({ s with expired := s.expired + 1, seq := s.seq.dropLast },
       if s.purger then [(ce.key, PurgeArg.ofValue ce.value)] else [])
  | none => (s, [])

/-- The loop of `RemoveAll`: `for l.list.Len() > 0 { l.expire() }`, with
fuel; `RemoveAll` passes the list length, which is exactly enough. -/
def RemoveAllLoop (fuel : Nat) (s : LRU V) (evs : List (PurgeEvent V)) :
    LRU V × List (PurgeEvent V) :=
  match fuel with
  | 0 => (s, evs)
  | fuel + 1 =>
      if 0 < s.seq.length then
        let r := Cache.expire s
        RemoveAllLoop fuel r.1 (evs ++ r.2)
      else (s, evs)

/-- `RemoveAll()` from the `Cache` variant (doc.go): evicts the back entry
through `expire` until the list is empty. -/
def RemoveAll (s : LRU V) : LRU V × List (PurgeEvent V) :=
  RemoveAllLoop s.seq.length s []

end Cache

/-! ### Basic lemmas about `expire` and the eviction loop -/

theorem expire_fst_of_ne (s : LRU V) (h : s.seq ≠ []) :
    (expire s).1 = { s with expired := s.expired + 1, seq := s.seq.dropLast } := by
  unfold expire
  rw [List.getLast?_eq_getLast s.seq h]

theorem expire_fst_of_nil (s : LRU V) (h : s.seq = []) : (expire s).1 = s := by
  unfold expire
  rw [h]
  rfl

theorem expire_limit (s : LRU V) : (expire s).1.limit = s.limit := by
  by_cases h : s.seq = []
  · rw [expire_fst_of_nil s h]
  · rw [expire_fst_of_ne s h]

theorem expireLoop_limit (fuel : Nat) :
    ∀ (s : LRU V) (evs : List (PurgeEvent V)),
      (expireLoop fuel s evs).1.limit = s.limit := by
  induction fuel with
  | zero => intro s evs; rfl
  | succ n ih =>
      intro s evs
      unfold expireLoop
      by_cases h : s.limit ≤ s.seq.length
      · simp only [h, if_true]
        rw [ih, expire_limit]
      · simp only [h, if_false]

theorem expireLoop_of_lt (fuel : Nat) (s : LRU V) (evs : List (PurgeEvent V))
    (h : s.seq.length < s.limit) : expireLoop fuel s evs = (s, evs) := by
  cases fuel with
  | zero => rfl
  | succ n =>
      unfold expireLoop
      simp only [Nat.not_le.mpr h, if_false]

theorem expireLoop_len_lt (fuel : Nat) :
    ∀ (s : LRU V) (evs : List (PurgeEvent V)), 1 ≤ s.limit →
      s.seq.length < s.limit + fuel →
      (expireLoop fuel s evs).1.seq.length < s.limit := by
  induction fuel with
  | zero => intro s evs _ h2; exact h2
  | succ n ih =>
      intro s evs h1 h2
      unfold expireLoop
      by_cases h : s.limit ≤ s.seq.length
      · simp only [h, if_true]
        have hne : s.seq ≠ [] := by
          intro hnil
          rw [hnil] at h
          simp at h
          omega
        have hfst := expire_fst_of_ne s hne
        have hlim : (expire s).1.limit = s.limit := expire_limit s
        have hlen : (expire s).1.seq.length = s.seq.length - 1 := by
          rw [hfst]
          exact List.length_dropLast s.seq
        have := ih (expire s).1 (evs ++ (expire s).2)
          (by rw [hlim]; exact h1) (by rw [hlen, hlim]; omega)
        rw [hlim] at this
        exact this
      · simp only [h, if_false]
        exact Nat.lt_of_not_le h

theorem expireLoop_unfold_of_le (fuel : Nat) (s : LRU V)
    (evs : List (PurgeEvent V)) (h : s.limit ≤ s.seq.length) :
    expireLoop (fuel + 1) s evs = expireLoop fuel (expire s).1 (evs ++ (expire s).2) := by
  conv_lhs => unfold expireLoop
  simp only [h, if_true]

/-! ### Lemmas about `lookup` -/

theorem lookup_eq_none_iff (seq : List (cacheEntry V)) (k : String) :
    lookup seq k = none ↔ ∀ ce ∈ seq, ce.key ≠ k := by
  unfold lookup
  rw [List.find?_eq_none]
  simp

theorem lookup_none_of_sublist {l l' : List (cacheEntry V)} {k : String}
    (hs : List.Sublist l' l) (h : lookup l k = none) : lookup l' k = none := by
  rw [lookup_eq_none_iff] at h ⊢
  intro ce hce
  exact h ce (hs.mem hce)

theorem expireLoop_lookup_none (fuel : Nat) :
    ∀ (s : LRU V) (evs : List (PurgeEvent V)) (k : String),
      lookup s.seq k = none →
      lookup (expireLoop fuel s evs).1.seq k = none := by
  induction fuel with
  | zero => intro s evs k h; exact h
  | succ n ih =>
      intro s evs k h
      unfold expireLoop
      by_cases hg : s.limit ≤ s.seq.length
      · simp only [hg, if_true]
        refine ih (expire s).1 (evs ++ (expire s).2) k ?_
        by_cases hne : s.seq = []
        · rw [expire_fst_of_nil s hne]; exact h
        · rw [expire_fst_of_ne s hne]
          exact lookup_none_of_sublist (List.dropLast_sublist s.seq) h
      · simp only [hg, if_false]
        exact h

theorem Set_limit (s : LRU V) (k : String) (v : V) : (Set s k v).1.limit = s.limit := by
  unfold Set
  have h := expireLoop_limit (s.seq.length + 1) s ([] : List (PurgeEvent V))
  cases hc : lookup (expireLoop (s.seq.length + 1) s []).1.seq k <;>
    simp only [hc] <;> exact h

theorem length_eraseKey_add_one {seq : List (cacheEntry V)} {k : String}
    {ce : cacheEntry V} (h : lookup seq k = some ce) :
    (eraseKey seq k).length + 1 = seq.length := by
  unfold lookup at h
  unfold eraseKey
  have hmem : ce ∈ seq := List.mem_of_find?_eq_some h
  have hp := @List.find?_some (cacheEntry V) (fun ce => ce.key == k) ce seq h
  exact List.length_eraseP_add_one hmem hp

/-! ### Claim C5: capacity invariant -/

/-- C5: for every cache with a positive limit (the only caches `New` can
produce) and every key and value, after a `Set` call the number of live
entries is at most the limit: `Len() ≤ Limit()` holds after every `Set`,
from any starting state. -/
theorem set_len_le_limit (s : LRU V) (k : String) (v : V) (h : 1 ≤ Limit s) :
    Len (Set s k v).1 ≤ Limit (Set s k v).1 := by
  have hlim : (Set s k v).1.limit = s.limit := Set_limit s k v
  unfold Limit at h ⊢
  rw [hlim]
  have h1 : (expireLoop (s.seq.length + 1) s []).1.seq.length < s.limit :=
    expireLoop_len_lt (s.seq.length + 1) s [] h (by omega)
  unfold Len Set
  cases hc : lookup (expireLoop (s.seq.length + 1) s []).1.seq k with
  | none =>
      simp only [hc, List.length_cons]
      omega
  | some ce =>
      simp only [hc, List.length_cons]
      have := length_eraseKey_add_one hc
      omega

/-- C5 witness: a concrete instance, limit 2 with three insertions. -/
theorem set_len_le_limit_witness :
    1 ≤ Limit (Set (Set (newLru Nat 2) "a" 1).1 "b" 2).1 ∧
    Len (Set (Set (Set (newLru Nat 2) "a" 1).1 "b" 2).1 "c" 3).1 ≤
      Limit (Set (Set (Set (newLru Nat 2) "a" 1).1 "b" 2).1 "c" 3).1 :=
  ⟨by decide, set_len_le_limit (Set (Set (newLru Nat 2) "a" 1).1 "b" 2).1 "c" 3 (by decide)⟩

/-! ### Claim C9: construction -/

/-- C9: `New` fails with the invalid-limit error exactly when the requested
limit is 0, and for every positive limit succeeds with a cache holding that
limit, no entries, all four counters zero and no purger; `New` is total, so
there is no other failure mode. -/
theorem new_spec (n : Nat) :
    (n = 0 → New V n = Except.error "limit must be positive") ∧
    (0 < n → New V n =
      Except.ok { seq := [], limit := n, hits := 0, misses := 0, expired := 0,
                  removes := 0, purger := false }) := by
  constructor
  · intro h
    simp [New, h]
  · intro h
    simp only [New, Nat.pos_iff_ne_zero.mp h, if_false]
    rfl

/-- C9 witness: both construction outcomes at concrete limits 0 and 1. -/
theorem new_spec_witness :
    New Nat 0 = Except.error "limit must be positive" ∧
    New Nat 1 = Except.ok { seq := [], limit := 1, hits := 0, misses := 0,
                            expired := 0, removes := 0, purger := false } :=
  ⟨(new_spec 0).1 rfl, (new_spec 1).2 (by decide)⟩

/-! ### Claim C10: insert/lookup round trip -/

/-- C10: for every cache with a positive limit and every key not currently
present, `Set(k, v)` immediately followed by `Get(k)` returns `(v, true)`,
regardless of any evictions the `Set` performed. -/
theorem set_then_get (s : LRU V) (k : String) (v : V) (_hlim : 1 ≤ s.limit)
    (habs : lookup s.seq k = none) : (Get (Set s k v).1 k).2 = (some v, true) := by
  unfold Set
  have h1 : lookup (expireLoop (s.seq.length + 1) s []).1.seq k = none :=
    expireLoop_lookup_none (s.seq.length + 1) s [] k habs
  simp only [h1]
  unfold Get lookup
  rw [List.find?_cons_of_pos _ (by simp)]

/-- C10 witness: a fresh key inserted into a full capacity-1 cache is
immediately retrievable. -/
theorem set_then_get_witness :
    1 ≤ (Set (newLru String 1) "a" "x").1.limit ∧
    lookup (Set (newLru String 1) "a" "x").1.seq "b" = none ∧
    (Get (Set (Set (newLru String 1) "a" "x").1 "b" "y").1 "b").2 = (some "y", true) :=
  ⟨by decide, by decide,
   set_then_get (Set (newLru String 1) "a" "x").1 "b" "y" (by decide) (by decide)⟩

/-! ### Claim C6: Get -/

/-- C6: every `Get` increments exactly one of hits/misses.  On a present
key it returns the stored value and `true`, increments `hits` by 1, leaves
`misses` alone, and moves the entry to the front of the sequence; on an
absent key it returns `(none, false)`, increments `misses` by 1 and changes
nothing else. -/
theorem get_spec (s : LRU V) (k : String) :
    ((Get s k).1.hits + (Get s k).1.misses = s.hits + s.misses + 1) ∧
    (∀ ce, lookup s.seq k = some ce →
      Get s k = ({ s with hits := s.hits + 1, seq := ce :: eraseKey s.seq k },
                 some ce.value, true)) ∧
    (lookup s.seq k = none →
      Get s k = ({ s with misses := s.misses + 1 }, none, false)) := by
  cases hc : lookup s.seq k with
  | none =>
      have hget : Get s k = ({ s with misses := s.misses + 1 }, none, false) := by
        unfold Get
        rw [hc]
      refine ⟨?_, ?_, fun _ => hget⟩
      · rw [hget]
        show s.hits + (s.misses + 1) = s.hits + s.misses + 1
        omega
      · intro ce hce
        exact absurd hce (by simp)
  | some ce' =>
      have hget : Get s k =
          ({ s with hits := s.hits + 1, seq := ce' :: eraseKey s.seq k },
           some ce'.value, true) := by
        unfold Get
        rw [hc]
      refine ⟨?_, ?_, ?_⟩
      · rw [hget]
        show s.hits + 1 + s.misses = s.hits + s.misses + 1
        omega
      · intro ce hce
        cases hce
        exact hget
      · intro h
        exact absurd h (by simp)

/-- C6 witness: both branches at concrete states — a hit on the single key
of a one-entry cache, and a miss on an absent key. -/
theorem get_spec_witness :
    lookup (Set (newLru String 5) "a" "b").1.seq "a" = some ⟨"a", "b"⟩ ∧
    Get (Set (newLru String 5) "a" "b").1 "a" =
      ({ seq := [⟨"a", "b"⟩], limit := 5, hits := 1, misses := 0, expired := 0,
         removes := 0, purger := false }, some "b", true) ∧
    lookup (Set (newLru String 5) "a" "b").1.seq "z" = none ∧
    Get (Set (newLru String 5) "a" "b").1 "z" =
      ({ seq := [⟨"a", "b"⟩], limit := 5, hits := 0, misses := 1, expired := 0,
         removes := 0, purger := false }, none, false) :=
  ⟨by decide,
   (get_spec (Set (newLru String 5) "a" "b").1 "a").2.1 ⟨"a", "b"⟩ (by decide),
   by decide,
   (get_spec (Set (newLru String 5) "a" "b").1 "z").2.2 (by decide)⟩

/-! ### Claim C7: Remove -/

/-- C7: `Remove` increments the removes counter unconditionally and its
purge-event trace is always empty (the body contains no notifier call).  On
a present key it deletes the entry from the sequence (and hence from the
derived index), decreases `Len` by one, changes nothing else, and returns
`true`; on an absent key it returns `false` and leaves the state unchanged
except for the removes counter. -/
theorem remove_spec (s : LRU V) (k : String) :
    ((Remove s k).1.removes = s.removes + 1) ∧
    ((Remove s k).2.2 = ([] : List (PurgeEvent V))) ∧
    (∀ ce, lookup s.seq k = some ce →
      (Remove s k).2.1 = true ∧
      (Remove s k).1 = { s with removes := s.removes + 1, seq := eraseKey s.seq k } ∧
      Len (Remove s k).1 + 1 = Len s) ∧
    (lookup s.seq k = none →
      (Remove s k).2.1 = false ∧ (Remove s k).1 = { s with removes := s.removes + 1 }) := by
  cases hc : lookup s.seq k with
  | none =>
      have hrem : Remove s k =
          ({ s with removes := s.removes + 1 }, false, ([] : List (PurgeEvent V))) := by
        unfold Remove
        dsimp only
        rw [hc]
      refine ⟨by rw [hrem], by rw [hrem], ?_, fun _ => ⟨by rw [hrem], by rw [hrem]⟩⟩
      intro ce hce
      exact absurd hce (by simp)
  | some ce' =>
      have hrem : Remove s k =
          ({ s with removes := s.removes + 1, seq := eraseKey s.seq k }, true,
           ([] : List (PurgeEvent V))) := by
        unfold Remove
        dsimp only
        rw [hc]
      refine ⟨by rw [hrem], by rw [hrem], ?_, ?_⟩
      · intro ce hce
        cases hce
        refine ⟨by rw [hrem], by rw [hrem], ?_⟩
        unfold Len
        rw [hrem]
        show (eraseKey s.seq k).length + 1 = s.seq.length
        exact length_eraseKey_add_one hc
      · intro h
        exact absurd h (by simp)

/-- C7 witness: both branches at a concrete two-entry cache. -/
theorem remove_spec_witness :
    lookup (Set (Set (newLru Nat 5) "a" 1).1 "b" 2).1.seq "a" = some ⟨"a", 1⟩ ∧
    Remove (Set (Set (newLru Nat 5) "a" 1).1 "b" 2).1 "a" =
      ({ seq := [⟨"b", 2⟩], limit := 5, hits := 0, misses := 0, expired := 0,
         removes := 1, purger := false }, true, []) ∧
    lookup (Set (Set (newLru Nat 5) "a" 1).1 "b" 2).1.seq "z" = none ∧
    (Remove (Set (Set (newLru Nat 5) "a" 1).1 "b" 2).1 "z").2.1 = false :=
  ⟨by decide,
   by
     have h := (remove_spec (Set (Set (newLru Nat 5) "a" 1).1 "b" 2).1 "a").2.2.1
       ⟨"a", 1⟩ (by decide)
     exact Prod.ext h.2.1 (Prod.ext h.1 ((remove_spec _ "a").2.1)),
   by decide,
   ((remove_spec (Set (Set (newLru Nat 5) "a" 1).1 "b" 2).1 "z").2.2.2 (by decide)).1⟩

/-! ### Claim C1: value update on Set of a present key -/

/-- C1: the claim says `Set` on a present key updates the stored value so a
later `Get` observes it.  In the source, `ce := entry.Value.(cacheEntry)`
copies the entry, so the assignment `ce.value = val` mutates only the copy
and the stored value is unchanged: after `Set("a","x"); Set("a","y")` the
second `Set` does return the prior value `"x"`, but `Get("a")` still
observes `"x"`, not `"y"`. -/
theorem set_update_lost :
    (Set (Set (newLru String 10) "a" "x").1 "a" "y").2.1 = some "x" ∧
    (Get (Set (Set (newLru String 10) "a" "x").1 "a" "y").1 "a").2.1 = some "x" ∧
    (Get (Set (Set (newLru String 10) "a" "x").1 "a" "y").1 "a").2.1 ≠ some "y" :=
  ⟨rfl, rfl, by decide⟩

/-! ### Claim C2: purge notifier argument -/

/-- C2: the claim says a capacity eviction hands the notifier the evicted
entry's plain value.  The source calls `l.purger.OnPurge(ce.key,
entry.Value)`, and `entry.Value` is the whole `cacheEntry`, so the notifier
receives the wrapper, not the stored value: evicting `("a", 1)` from a full
capacity-1 cache produces the event `("a", ofEntry ⟨"a", 1⟩)` and not
`("a", ofValue 1)`. -/
theorem purge_arg_is_wrapper :
    (Set (Set (RegisterPurger (newLru Nat 1)) "a" 1).1 "b" 2).2.2 =
      [("a", PurgeArg.ofEntry ⟨"a", 1⟩)] ∧
    (Set (Set (RegisterPurger (newLru Nat 1)) "a" 1).1 "b" 2).2.2 ≠
      [("a", PurgeArg.ofValue 1)] :=
  ⟨rfl, by decide⟩

/-! ### Claim C3: frame effects of Set -/

/-- C3: the claim says `Set` on an existing key returns the prior value and
leaves `Len()` unchanged.  The eviction loop runs before the presence
check, so at capacity an update evicts first: with limit 1,
`Set("a",1); Set("a",2)` evicts `"a"` and returns `none` instead of the
prior value `1`; with limit 2, updating the most recent key of a full cache
evicts the other entry and `Len()` drops from 2 to 1. -/
theorem set_update_at_capacity :
    (Set (Set (newLru Nat 1) "a" 1).1 "a" 2).2.1 = none ∧
    Len (Set (Set (Set (newLru Nat 2) "a" 1).1 "b" 2).1 "b" 3).1 = 1 :=
  ⟨rfl, rfl⟩

/-! ### Claim C8: RemoveAll -/

theorem reverse_eq_getLast_cons {α : Type} (l : List α) (h : l ≠ []) :
    l.reverse = l.getLast h :: l.dropLast.reverse := by
  conv_lhs => rw [← List.dropLast_append_getLast h]
  simp

theorem cache_expire_of_ne (s : LRU V) (h : s.seq ≠ []) :
    Cache.expire s =
      ({ s with expired := s.expired + 1, seq := s.seq.dropLast },
       if s.purger then
         [((s.seq.getLast h).key, PurgeArg.ofValue (s.seq.getLast h).value)]
       else []) := by
  unfold Cache.expire
  rw [List.getLast?_eq_getLast s.seq h]

theorem removeAllLoop_spec (fuel : Nat) :
    ∀ (s : LRU V) (evs : List (PurgeEvent V)), s.seq.length = fuel →
      Cache.RemoveAllLoop fuel s evs =
        ({ s with seq := [], expired := s.expired + fuel },
         evs ++ (if s.purger then
             s.seq.reverse.map (fun ce => (ce.key, PurgeArg.ofValue ce.value))
           else [])) := by
  induction fuel with
  | zero =>
      intro s evs h
      obtain ⟨sq, lm, hh, hm, he, hr, hp⟩ := s
      simp only [List.length_eq_zero] at h
      subst h
      simp [Cache.RemoveAllLoop]
  | succ n ih =>
      intro s evs h
      have hne : s.seq ≠ [] := by
        intro hn
        rw [hn] at h
        simp at h
      have hpos : 0 < s.seq.length := by omega
      conv_lhs => unfold Cache.RemoveAllLoop
      simp only [hpos, if_true]
      rw [cache_expire_of_ne s hne]
      have hlen' : ({ s with expired := s.expired + 1, seq := s.seq.dropLast } : LRU V).seq.length = n := by
        simp only [List.length_dropLast]
        omega
      rw [ih _ _ hlen']
      have hexp : s.expired + 1 + n = s.expired + (n + 1) := by omega
      rw [hexp]
      refine congrArg _ ?_
      by_cases hp : s.purger
      · simp only [hp, if_true]
        rw [reverse_eq_getLast_cons s.seq hne]
        simp
      · simp [hp]

/-- C8: `RemoveAll` repeatedly evicts the back-most entry through the same
`expire` used by capacity eviction until the sequence is empty: the final
sequence is empty, the expired counter grows by the old `Len()`, every
other field is unchanged, and when a purge notifier is registered one
notification fires per evicted entry, back to front, carrying that entry's
key and value. -/
theorem removeAll_spec (s : LRU V) :
    Cache.RemoveAll s =
      ({ s with seq := [], expired := s.expired + Len s },
       if s.purger then
         s.seq.reverse.map (fun ce => (ce.key, PurgeArg.ofValue ce.value))
       else []) := by
  unfold Cache.RemoveAll Len
  have h := removeAllLoop_spec s.seq.length s [] rfl
  simpa using h

/-! ### Claim C4: eviction in strict recency order -/

theorem setAll_append (s : LRU V) (kvs : List (String × V)) (kv : String × V) :
    setAll s (kvs ++ [kv]) = (Set (setAll s kvs) kv.1 kv.2).1 := by
  unfold setAll
  rw [List.foldl_append]
  rfl

theorem setAll_limit (kvs : List (String × V)) :
    ∀ s : LRU V, (setAll s kvs).limit = s.limit := by
  induction kvs with
  | nil => intro s; rfl
  | cons kv kvs ih =>
      intro s
      show (setAll (Set s kv.1 kv.2).1 kvs).limit = s.limit
      rw [ih, Set_limit]

/-- `Set` of a key that is not present, on a state within capacity: the new
entry goes to the front, on top of the old sequence truncated to `limit - 1`
entries (a no-op below capacity, dropping the back entry at capacity). -/
theorem Set_seq_of_fresh (s : LRU V) (k : String) (v : V) (h1 : 1 ≤ s.limit)
    (h2 : s.seq.length ≤ s.limit) (h3 : lookup s.seq k = none) :
    (Set s k v).1.seq = ⟨k, v⟩ :: s.seq.take (s.limit - 1) := by
  rcases Nat.lt_or_ge s.seq.length s.limit with hlt | hge
  · unfold Set
    rw [expireLoop_of_lt (s.seq.length + 1) s [] hlt]
    dsimp only
    rw [h3]
    rw [List.take_of_length_le (by omega)]
  · have heq : s.seq.length = s.limit := le_antisymm h2 hge
    have hne : s.seq ≠ [] := by
      intro hn
      rw [hn] at heq
      simp at heq
      omega
    have h3' : lookup ((expire s).1.seq) k = none := by
      rw [expire_fst_of_ne s hne]
      exact lookup_none_of_sublist (List.dropLast_sublist s.seq) h3
    unfold Set
    rw [expireLoop_unfold_of_le s.seq.length s [] (by omega),
        expireLoop_of_lt s.seq.length (expire s).1 ([] ++ (expire s).2)
          (by rw [expire_fst_of_ne s hne]
              simp only [List.length_dropLast]
              omega)]
    dsimp only
    rw [h3']
    rw [expire_fst_of_ne s hne]
    simp only [List.dropLast_eq_take, heq]

/-- Inserting a sequence of distinct keys into a fresh cache of limit `L`
leaves exactly the last `L` of them, most recent first. -/
theorem setAll_newLru_seq (L : Nat) (hL : 1 ≤ L) (kvs : List (String × V))
    (hnd : (kvs.map Prod.fst).Nodup) :
    (setAll (newLru V L) kvs).seq =
      (kvs.map (fun kv => (⟨kv.1, kv.2⟩ : cacheEntry V))).reverse.take L := by
  induction kvs using List.reverseRecOn with
  | nil => simp [setAll, newLru]
  | append_singleton kvs kv ih =>
      rw [List.map_append] at hnd
      rw [List.nodup_append] at hnd
      obtain ⟨hnd', _, hdisj⟩ := hnd
      have hfresh : kv.1 ∉ kvs.map Prod.fst := fun hmem => by
        simpa using hdisj hmem
      rw [setAll_append]
      have hSlim : (setAll (newLru V L) kvs).limit = L := by
        rw [setAll_limit]
        rfl
      have hSseq := ih hnd'
      have hlen : (setAll (newLru V L) kvs).seq.length ≤ L := by
        rw [hSseq]
        exact le_trans (List.length_take_le _ _) (le_refl L)
      have hlook : lookup (setAll (newLru V L) kvs).seq kv.1 = none := by
        rw [lookup_eq_none_iff]
        intro ce hce
        rw [hSseq] at hce
        have hce2 := List.take_subset _ _ hce
        rw [List.mem_reverse] at hce2
        obtain ⟨kv', hkv', hmk⟩ := List.mem_map.mp hce2
        intro hkey
        apply hfresh
        rw [← hkey, ← hmk]
        exact List.mem_map_of_mem Prod.fst hkv'
      rw [Set_seq_of_fresh (setAll (newLru V L) kvs) kv.1 kv.2
            (by rw [hSlim]; exact hL) (by rw [hSlim]; exact hlen) hlook,
          hSseq, hSlim]
      rw [List.take_take, Nat.min_eq_left (by omega)]
      rw [List.map_append, List.reverse_append]
      simp only [List.map_cons, List.map_nil, List.reverse_cons,
        List.reverse_nil, List.nil_append, List.singleton_append]
      obtain ⟨m, rfl⟩ : ∃ m, L = m + 1 := ⟨L - 1, by omega⟩
      rw [List.take_succ_cons]
      simp

/-- C4: eviction follows strict recency order.  General part: inserting any
sequence of distinct keys into a fresh cache of limit `L ≥ 1` leaves
exactly the last `L` keys, most recent first — the least-recently-touched
entry is always the one evicted.  Concrete part: with capacity 10,
inserting `"willExpire"` and then `"0"`..`"9"`, a `Get` of `"willExpire"`
misses while `Get("0")`..`Get("9")` all hit and return their values. -/
theorem eviction_order (L : Nat) (kvs : List (String × V)) (hL : 1 ≤ L)
    (hnd : (kvs.map Prod.fst).Nodup) :
    ((setAll (newLru V L) kvs).seq =
      (kvs.map (fun kv => (⟨kv.1, kv.2⟩ : cacheEntry V))).reverse.take L) ∧
    ((getAll (setAll (newLru String 10)
        (("willExpire", "test") ::
          ["0", "1", "2", "3", "4", "5", "6", "7", "8", "9"].map (fun k => (k, k))))
        ("willExpire" :: ["0", "1", "2", "3", "4", "5", "6", "7", "8", "9"])).2 =
      (none, false) ::
        ["0", "1", "2", "3", "4", "5", "6", "7", "8", "9"].map
          (fun k => (some k, true))) := by
  refine ⟨setAll_newLru_seq L hL kvs hnd, ?_⟩
  rfl

/-- C4 witness: three distinct keys into a capacity-2 cache keep the last
two, most recent first. -/
theorem eviction_order_witness :
    (setAll (newLru Nat 2) [("a", 1), ("b", 2), ("c", 3)]).seq =
      ([("a", 1), ("b", 2), ("c", 3)].map
        (fun kv => (⟨kv.1, kv.2⟩ : cacheEntry Nat))).reverse.take 2 :=
  (eviction_order 2 [("a", 1), ("b", 2), ("c", 3)] (by decide) (by decide)).1

end LruSpec
